import Mathlib

/-
  Verification of the hour-allocation core of the planta-automation repository.

  The embedding models the Python functions of `src/calculations.py`
  (`apply_fill_values`, `fill_day`) and `src/src/planta_filler/strategies.py`
  (`validate_hours_and_slots`, `enforce_exact_sum`, `distribute_equal`,
  `distribute_random`, `copy_reference_day`).

  Modelling choices:
  - Python floats become exact rationals (ℚ); `round(x, p)` becomes
    round-half-even at `p` decimal digits (`roundTo`), matching Python's
    banker's rounding on exactly representable values.
  - Python exceptions and `assert` failures become `Except Err` errors.
  - Randomness (`random.uniform`, `random.randint`, `random.choice`) is made
    explicit: every random draw or pick is an oracle argument, and theorems
    quantify over all oracle values.
-/

attribute [local semireducible] Rat.add Rat.sub Rat.mul Rat.inv Rat.ofScientific

namespace Planta

/-- Exceptions and assertion failures of the Python code. -/
inductive Err where
  /-- Python `ValueError("slots must be a positive integer")` -/
  | slotsNonPositive
  /-- Python `ValueError("total_hours must be non-negative")` -/
  | negativeHours
  /-- the `assert sum(values) == total_hours` in `enforce_exact_sum` -/
  | assertEnforce
  /-- Python `ValueError` after the retry loop of `distribute_random` -/
  | exhaustedRetries
  /-- the reference-length `assert` in `copy_reference_day` -/
  | assertRefLen
  /-- Python `ZeroDivisionError` -/
  | zeroDiv
  /-- the `assert post_randomization < 1` in `apply_fill_values` -/
  | assertRandFactor
  /-- the `assert sum(random_values) == sum(fill_values)` in `apply_fill_values` -/
  | assertPostRandSum
  /-- Python `ValueError("Not enough fill_values...")` in `apply_fill_values` -/
  | notEnoughFill
  /-- the `assert fill_idx == slots` in `apply_fill_values` -/
  | assertFillCount
  /-- Python `KeyError` for an unknown strategy name in `fill_day` -/
  | keyError
  /-- the unreachable final `ValueError` of the strategy dispatch in `fill_day` -/
  | valueStrategy
  /-- the length-match `assert` in `fill_day` -/
  | assertLen
  /-- the final `assert sum(res) == total_hours` in `fill_day` -/
  | assertPostSum
  deriving DecidableEq

deriving instance DecidableEq for Except

/-- Round-half-even to an integer: Python's `round(x)` on exact values. -/
def pround (x : ℚ) : ℤ :=
  let n := x.floor
  let r := x - n
  if r < 1/2 then n
  else if 1/2 < r then n + 1
  else if n % 2 = 0 then n else n + 1

/-- Python's `round(x, p)`: round half to even at `p` decimal digits. -/
def roundTo (p : ℕ) (x : ℚ) : ℚ := (pround (x * 10 ^ p) : ℚ) / 10 ^ p

/-- Model of `validate_hours_and_slots` from `strategies.py`.  `slots` is a count, so
Python's `slots <= 0` is `slots = 0` here, and the `isinstance(slots, int)`
check cannot fail in this model.  `.ok (some r)` is an early `return r`,
`.ok none` is Python's final `return None`. -/
def validate_hours_and_slots (total_hours : ℚ) (slots : ℕ) (precision : ℕ) :
    Except Err (Option (List ℚ)) :=
  if slots = 0 then .error .slotsNonPositive
  else if total_hours < 0 then .error .negativeHours
  else if slots = 0 then .ok (some [])
  else if slots = 1 then .ok (some [roundTo precision total_hours])
  else .ok none

/-- Model of `enforce_exact_sum` from `strategies.py`.  `pick` models
`random.randint(0, len(values)-1)`: the chosen index is `pick % len`. -/
def enforce_exact_sum (total_hours : ℚ) (values : List ℚ) (precision : ℕ)
    (pick : ℕ) : Except Err (List ℚ) :=
  if values = [] then .ok values
  else
    let rounded := values.map (roundTo precision)
    let diff := total_hours - rounded.sum
    if diff = 0 then .ok rounded
    else
      let adjusted :=
        if |diff| > 0 then
          let index := pick % rounded.length
          rounded.set index (roundTo precision (rounded.getD index 0 + diff))
        else rounded
      if adjusted.sum = total_hours then .ok adjusted else .error .assertEnforce

/-- Model of `distribute_equal` from `strategies.py`. -/
def distribute_equal (total_hours : ℚ) (slots : ℕ) (precision : ℕ) (pick : ℕ) :
    Except Err (List ℚ) :=
  match validate_hours_and_slots total_hours slots precision with
  | .error e => .error e
  | .ok (some result) => .ok result
  | .ok none =>
      enforce_exact_sum total_hours (List.replicate slots (total_hours / slots))
        precision pick

/-- The retry loop of `distribute_random`.  `draws attempt j` models the
`random.uniform(0, total_hours)` draw for slot `j` in a given attempt. -/
def randAttempts (total_hours : ℚ) (slots precision : ℕ) (pick : ℕ)
    (draws : ℕ → ℕ → ℚ) : ℕ → ℕ → Except Err (List ℚ)
  | 0, _ => .error .exhaustedRetries
  | fuel + 1, attempt =>
      let values := (List.range slots).map fun j =>
        roundTo precision (draws attempt j)
      if 0 < values.sum then
        enforce_exact_sum total_hours
          (values.map fun v => v * (total_hours / values.sum)) precision pick
      else randAttempts total_hours slots precision pick draws fuel (attempt + 1)

/-- Model of `distribute_random` from `strategies.py`. -/
def distribute_random (total_hours : ℚ) (slots precision retries : ℕ)
    (draws : ℕ → ℕ → ℚ) (pick : ℕ) : Except Err (List ℚ) :=
  match validate_hours_and_slots total_hours slots precision with
  | .error e => .error e
  | .ok (some result) => .ok result
  | .ok none => randAttempts total_hours slots precision pick draws retries 0

/-- Model of `copy_reference_day` from `strategies.py`.  Note that the source calls
`validate_hours_and_slots(total_hours, slots)` without its `precision`
argument, so the default precision 2 is used there. -/
def copy_reference_day (total_hours : ℚ) (slots : ℕ) (reference_day : List ℚ)
    (precision : ℕ) (pick : ℕ) : Except Err (List ℚ) :=
  if reference_day.length ≠ slots then .error .assertRefLen
  else
    match validate_hours_and_slots total_hours slots 2 with
    | .error e => .error e
    | .ok (some result) => .ok result
    | .ok none =>
        if reference_day.sum = 0 then .error .zeroDiv
        else
          enforce_exact_sum total_hours
            (reference_day.map fun v => total_hours * v / reference_day.sum)
            precision pick

/-- The per-value perturbation of the post-randomization block of
`apply_fill_values`: `value + round(post * uniform(-value, value), 2)`,
where `rs i` models the `uniform` draw for position `i`.  The rounding
precision 2 is hard-coded in the source. -/
def perturbed (post : ℚ) (rs : ℕ → ℚ) (fill_values : List ℚ) : List ℚ :=
  fill_values.enum.map fun q => q.2 + roundTo 2 (post * rs q.1)

/-- The post-randomization block of `apply_fill_values` (lines 14-34 of
`calculations.py`), factored out.  `pick` models the `random.choice` among
the positive indices.  An empty perturbed list makes Python's
`abs(diff) // len(random_values)` raise `ZeroDivisionError`. -/
def post_randomize (fill_values : List ℚ) (post_randomization : ℚ)
    (precision : ℕ) (rs : ℕ → ℚ) (pick : ℕ) : Except Err (List ℚ) :=
  if post_randomization = 0 then .ok fill_values
  else if ¬ post_randomization < 1 then .error .assertRandFactor
  else
    let random_values := perturbed post_randomization rs fill_values
    if random_values.length = 0 then .error .zeroDiv
    else
      let diff := fill_values.sum - random_values.sum
      let random_values :=
        if ((|diff| / (random_values.length : ℚ)).floor : ℚ) ≥ 1 / 10 ^ precision then
          random_values.map fun v => v + diff / random_values.length
        else random_values
      let diff2 := fill_values.sum - random_values.sum
      let indices_positive :=
        (random_values.enum.filter fun q => 0 < q.2 + diff2).map Prod.fst
      let random_values :=
        if indices_positive = [] then random_values
        else
          let random_index :=
            indices_positive.getD (pick % indices_positive.length) 0
          random_values.set random_index
            (random_values.getD random_index 0 + diff2)
      if random_values.sum = fill_values.sum then .ok random_values
      else .error .assertPostRandSum

/-- Modelled from the spec: the Post-Randomization step with the coarse
correction triggered when `abs(diff) / count >= 1 unit at the given
precision`, i.e. with true division, as the spec words it.  The source
(`calculations.py` line 26) instead uses Python floor division
(`abs(diff) // len(random_values)`), so the two differ; compare with
`post_randomize`. -/
def post_randomize_specModel (fill_values : List ℚ) (post_randomization : ℚ)
    (precision : ℕ) (rs : ℕ → ℚ) (pick : ℕ) : Except Err (List ℚ) :=
  if post_randomization = 0 then .ok fill_values
  else if ¬ post_randomization < 1 then .error .assertRandFactor
  else
    let random_values := perturbed post_randomization rs fill_values
    if random_values.length = 0 then .error .zeroDiv
    else
      let diff := fill_values.sum - random_values.sum
      let random_values :=
        if |diff| / (random_values.length : ℚ) ≥ 1 / 10 ^ precision then
          random_values.map fun v => v + diff / random_values.length
        else random_values
      let diff2 := fill_values.sum - random_values.sum
      let indices_positive :=
        (random_values.enum.filter fun q => 0 < q.2 + diff2).map Prod.fst
      let random_values :=
        if indices_positive = [] then random_values
        else
          let random_index :=
            indices_positive.getD (pick % indices_positive.length) 0
          random_values.set random_index
            (random_values.getD random_index 0 + diff2)
      if random_values.sum = fill_values.sum then .ok random_values
      else .error .assertPostRandSum

/-- The fill loop of `apply_fill_values` (lines 36-47 of `calculations.py`):
walk `zip(res, exclude_values)`, skip excluded positions, assign the next
fill value (clamped at 0) to each blank non-excluded position.  Returns the
merged list and the final `fill_idx`.  Entries of `res` beyond the zip range
are kept unchanged, as in the source. -/
def mergeFill (fill_values : List ℚ) :
    List ℚ → List ℤ → ℕ → Except Err (List ℚ × ℕ)
  | [], _, fill_idx => .ok ([], fill_idx)
  | cv :: cvs, [], fill_idx => .ok (cv :: cvs, fill_idx)
  | cv :: cvs, ex :: exs, fill_idx =>
      if ex = 1 then
        match mergeFill fill_values cvs exs fill_idx with
        | .error e => .error e
        | .ok (rest, k) => .ok (cv :: rest, k)
      else if cv = -1 then
        if fill_idx < fill_values.length then
          match mergeFill fill_values cvs exs (fill_idx + 1) with
          | .error e => .error e
          | .ok (rest, k) =>
              .ok (max (fill_values.getD fill_idx 0) 0 :: rest, k)
        else .error .notEnoughFill
      else
        match mergeFill fill_values cvs exs fill_idx with
        | .error e => .error e
        | .ok (rest, k) => .ok (cv :: rest, k)

/-- Model of `apply_fill_values` from `calculations.py`: optional post-randomization,
fill loop, `assert fill_idx == slots`, final clamp `[max(0.0, v) for v in res]`. -/
def apply_fill_values (current_values : List ℚ) (exclude_values : List ℤ)
    (fill_values : List ℚ) (slots : ℕ) (post_randomization : ℚ)
    (precision : ℕ) (rs : ℕ → ℚ) (pick : ℕ) : Except Err (List ℚ) :=
  match post_randomize fill_values post_randomization precision rs pick with
  | .error e => .error e
  | .ok fills =>
      match mergeFill fills current_values exclude_values 0 with
      | .error e => .error e
      | .ok (res, fill_idx) =>
          if fill_idx = slots then .ok (res.map fun v => max 0 v)
          else .error .assertFillCount

/-- All random choices a `fill_day` run can consume. -/
structure Oracle where
  /-- index pick for `enforce_exact_sum` -/
  enforcePick : ℕ
  /-- per-attempt, per-slot draws for `distribute_random` -/
  randDraws : ℕ → ℕ → ℚ
  /-- per-position `uniform(-v, v)` draws for post-randomization -/
  postDraws : ℕ → ℚ
  /-- pick for `random.choice(indices_positive)` -/
  postPick : ℕ

/-- Count `slots` as computed in `fill_day`: count of positions that are blank
(`-1`) and not excluded (`0`). -/
def slots_to_fill (current_values : List ℚ) (exclude_values : List ℤ) : ℕ :=
  ((current_values.zip exclude_values).filter fun q =>
    q.1 = -1 ∧ q.2 = 0).length

/-- Model of `fill_day` from `calculations.py`.  The all-numeric `assert` on
`current_values` cannot fail in this model since entries are ℚ. -/
def fill_day (override_mode : Bool) (strategy : String)
    (exclude_values0 : List ℤ) (total_hours : ℚ) (current_values0 : List ℚ)
    (retries precision : ℕ) (reference_day : List ℚ)
    (post_randomization : ℚ) (o : Oracle) : Except Err (List ℚ) :=
  let exclude_values :=
    if exclude_values0 = [] then List.replicate current_values0.length 0
    else exclude_values0
  if current_values0.length ≠ exclude_values.length then .error .assertLen
  else
    let current_values :=
      if override_mode then List.replicate current_values0.length (-1)
      else current_values0
    let slots := slots_to_fill current_values exclude_values
    let hours_to_distribute :=
      roundTo precision
        (max 0 (total_hours - (current_values.filter fun v => v ≠ -1).sum))
    if ¬ (strategy = "random" ∨ strategy = "equal" ∨
          strategy = "copy_reference") then .error .keyError
    else
      let fillsE :=
        if strategy = "equal" then
          distribute_equal hours_to_distribute slots precision o.enforcePick
        else if strategy = "random" then
          distribute_random hours_to_distribute slots precision retries
            o.randDraws o.enforcePick
        else if strategy = "copy_reference" then
          let ref := reference_day.map fun v => if 0 ≤ v then v else 0
          let cut := ((ref.zip (exclude_values.zip current_values)).filter
              fun q => q.2.1 = 0 ∧ q.2.2 = -1).map Prod.fst
          match copy_reference_day hours_to_distribute slots cut precision
              o.enforcePick with
          | .ok v => .ok v
          | .error _ =>
              distribute_equal hours_to_distribute slots precision
                o.enforcePick
        else .error .valueStrategy
      match fillsE with
      | .error e => .error e
      | .ok fill_values =>
          match apply_fill_values current_values exclude_values fill_values
              slots post_randomization precision o.postDraws o.postPick with
          | .error e => .error e
          | .ok res =>
              if res.sum = total_hours then .ok res else .error .assertPostSum

/-! ### Rounding lemmas -/

/-- Floor of an integer cast to the rationals is that integer. -/
theorem ratFloor_intCast (n : ℤ) : (n : ℚ).floor = n := by
  unfold Rat.floor
  simp

/-- Round-half-even of an integer is that integer. -/
theorem pround_intCast (n : ℤ) : pround (n : ℚ) = n := by
  unfold pround
  rw [ratFloor_intCast]
  norm_num

/-- Values of the form `n / 10^p` are fixed points of `roundTo p`. -/
theorem roundTo_intCast_div (p : ℕ) (n : ℤ) :
    roundTo p ((n : ℚ) / 10 ^ p) = (n : ℚ) / 10 ^ p := by
  unfold roundTo
  rw [div_mul_cancel₀ _ (pow_ne_zero p (by norm_num : (10 : ℚ) ≠ 0)), pround_intCast]

/-- Rounding is idempotent. -/
theorem roundTo_roundTo (p : ℕ) (x : ℚ) :
    roundTo p (roundTo p x) = roundTo p x :=
  roundTo_intCast_div p (pround (x * 10 ^ p))

/-- Rounding zero gives zero. -/
theorem roundTo_zero (p : ℕ) : roundTo p 0 = 0 := by
  have h := roundTo_intCast_div p 0
  simpa using h

/-! ### The Exact-Sum Enforcer on a normal return -/

/-- On any normal return with a non-empty input, `enforce_exact_sum` produces a
list of the same length summing exactly to `total_hours`. -/
theorem enforce_ok {total : ℚ} {values : List ℚ} {p pick : ℕ} {out : List ℚ}
    (hne : values ≠ []) (h : enforce_exact_sum total values p pick = .ok out) :
    out.sum = total ∧ out.length = values.length := by
  unfold enforce_exact_sum at h
  rw [if_neg hne] at h
  simp only [] at h
  by_cases hd : total - (values.map (roundTo p)).sum = 0
  · rw [if_pos hd] at h
    cases h
    constructor
    · linarith [hd]
    · simp
  · rw [if_neg hd] at h
    rw [if_pos (abs_pos.mpr hd)] at h
    split at h
    · cases h
      constructor
      · assumption
      · simp
    · cases h

/-! ### Validation helper -/

/-- With zero slots, validation raises before anything else. -/
theorem validate_slots_zero (t : ℚ) (p : ℕ) :
    validate_hours_and_slots t 0 p = .error .slotsNonPositive := rfl

/-- With one slot and non-negative hours, validation is the early return. -/
theorem validate_one {t : ℚ} {p : ℕ} (ht : 0 ≤ t) :
    validate_hours_and_slots t 1 p = .ok (some [roundTo p t]) := by
  simp [validate_hours_and_slots, not_lt.mpr ht]

/-- With at least two slots and non-negative hours, validation passes through. -/
theorem validate_none {t : ℚ} {s p : ℕ} (ht : 0 ≤ t) (hs : 2 ≤ s) :
    validate_hours_and_slots t s p = .ok none := by
  have h0 : s ≠ 0 := by omega
  have h1 : s ≠ 1 := by omega
  simp [validate_hours_and_slots, h0, h1, not_lt.mpr ht]

/-- Any normal return of the random strategy's retry loop has the shape and
exact sum that `enforce_exact_sum` guarantees. -/
theorem randAttempts_ok {total : ℚ} {slots p pick : ℕ} {draws : ℕ → ℕ → ℚ}
    {out : List ℚ} (hs : slots ≠ 0) :
    ∀ fuel attempt : ℕ,
      randAttempts total slots p pick draws fuel attempt = .ok out →
      out.sum = total ∧ out.length = slots := by
  intro fuel
  induction fuel with
  | zero => intro attempt h; cases h
  | succ n ih =>
      intro attempt h
      unfold randAttempts at h
      simp only [] at h
      split at h
      · have hne : (((List.range slots).map fun j =>
            roundTo p (draws attempt j)).map fun v =>
            v * (total / ((List.range slots).map fun j =>
              roundTo p (draws attempt j)).sum)) ≠ [] := by
          simp [List.map_eq_nil_iff, List.range_eq_nil, hs]
        rcases enforce_ok hne h with ⟨h1, h2⟩
        refine ⟨h1, ?_⟩
        simpa using h2
      · exact ih (attempt + 1) h

/-- Claim C3 (amended): for non-negative hours and at least one slot, every
strategy that returns normally produces a list of length `slot_count` whose
sum, rounded at the working precision, equals `total_hours` rounded at that
precision (for the proportional-copy strategy the degenerate one-slot case
rounds at the hard-coded default precision 2, so its guarantee is at
precision 2).  The claimed non-negativity of all entries does not hold, see
the counterexample. -/
theorem C3_strategy_length_sum :
    (∀ (t : ℚ) (slots p pick : ℕ) (out : List ℚ), 0 ≤ t → 1 ≤ slots →
        distribute_equal t slots p pick = .ok out →
        out.length = slots ∧ roundTo p out.sum = roundTo p t) ∧
    (∀ (t : ℚ) (slots p retries pick : ℕ) (draws : ℕ → ℕ → ℚ) (out : List ℚ),
        0 ≤ t → 1 ≤ slots →
        distribute_random t slots p retries draws pick = .ok out →
        out.length = slots ∧ roundTo p out.sum = roundTo p t) ∧
    (∀ (t : ℚ) (slots p pick : ℕ) (ref : List ℚ) (out : List ℚ),
        0 ≤ t → 1 ≤ slots →
        copy_reference_day t slots ref p pick = .ok out →
        out.length = slots ∧ roundTo 2 out.sum = roundTo 2 t) := by
  refine ⟨?_, ?_, ?_⟩
  · intro t slots p pick out ht hs h
    unfold distribute_equal at h
    rcases LE.le.lt_or_eq hs with h2 | h1
    · rw [validate_none ht h2] at h
      have h' : enforce_exact_sum t (List.replicate slots (t / slots)) p pick
          = .ok out := h
      have hne : List.replicate slots (t / slots) ≠ [] := by
        simp [List.replicate_eq_nil_iff]; omega
      rcases enforce_ok hne h' with ⟨s1, s2⟩
      refine ⟨by simpa using s2, by rw [s1]⟩
    · subst h1
      rw [validate_one ht] at h
      have h' : Except.ok (ε := Err) [roundTo p t] = .ok out := h
      cases h'
      exact ⟨by simp, by simp [roundTo_roundTo]⟩
  · intro t slots p retries pick draws out ht hs h
    unfold distribute_random at h
    rcases LE.le.lt_or_eq hs with h2 | h1
    · rw [validate_none ht h2] at h
      have h' : randAttempts t slots p pick draws retries 0 = .ok out := h
      have hs0 : slots ≠ 0 := by omega
      rcases randAttempts_ok hs0 retries 0 h' with ⟨s1, s2⟩
      exact ⟨s2, by rw [s1]⟩
    · subst h1
      rw [validate_one ht] at h
      have h' : Except.ok (ε := Err) [roundTo p t] = .ok out := h
      cases h'
      exact ⟨by simp, by simp [roundTo_roundTo]⟩
  · intro t slots p pick ref out ht hs h
    unfold copy_reference_day at h
    split at h
    · cases h
    · rename_i hlen
      rw [not_ne_iff] at hlen
      rcases LE.le.lt_or_eq hs with h2 | h1
      · rw [validate_none ht h2] at h
        have h' : (if ref.sum = 0 then Except.error (α := List ℚ) Err.zeroDiv
            else enforce_exact_sum t (ref.map fun v => t * v / ref.sum) p pick)
            = .ok out := h
        split at h'
        · cases h'
        · have hrefne : ref ≠ [] := by
            intro hnil
            rw [hnil] at hlen
            simp at hlen
            omega
          have hne : (ref.map fun v => t * v / ref.sum) ≠ [] := by
            simp [List.map_eq_nil_iff, hrefne]
          rcases enforce_ok hne h' with ⟨s1, s2⟩
          refine ⟨by simpa [hlen] using s2, by rw [s1]⟩
      · subst h1
        rw [validate_one ht] at h
        have h' : Except.ok (ε := Err) [roundTo 2 t] = .ok out := h
        cases h'
        exact ⟨by simp, by simp [roundTo_roundTo]⟩

/-- Claim C3 (counterexample): `distribute_equal(0.03, 5)` returns normally
(its internal sum assertion passes), yet the slot absorbing the rounding
residual ends at `-0.01 < 0`. -/
theorem C3_negative_entry :
    distribute_equal (3/100) 5 2 0 =
      .ok [-1/100, 1/100, 1/100, 1/100, 1/100] ∧ (-1/100 : ℚ) < 0 := by
  constructor
  · decide
  · norm_num

/-- Witness for `C3_strategy_length_sum` at a concrete input. -/
theorem C3_strategy_length_sum_witness :
    [(2:ℚ), 2, 2, 2].length = 4 ∧
      roundTo 2 ([(2:ℚ), 2, 2, 2].sum) = roundTo 2 8 :=
  C3_strategy_length_sum.1 8 4 2 0 [2, 2, 2, 2] (by norm_num) (by norm_num)
    (by decide)

/-- Claim C4: for any factor in `[0, 1)` and any non-negative fill vector,
whenever the Post-Randomization step returns a perturbed vector, its sum
equals the sum of the original vector exactly (the final sum assertion of the
block enforces this on every normal return, for every random draw). -/
theorem C4_post_rand_preserves_sum (fills : List ℚ) (post : ℚ) (p : ℕ)
    (rs : ℕ → ℚ) (pick : ℕ) (out : List ℚ) (h0 : 0 ≤ post) (h1 : post < 1)
    (hnn : ∀ v ∈ fills, 0 ≤ v)
    (h : post_randomize fills post p rs pick = .ok out) :
    out.sum = fills.sum := by
  unfold post_randomize at h
  by_cases hz : post = 0
  · rw [if_pos hz] at h
    cases h
    rfl
  · rw [if_neg hz, if_neg (not_not.mpr h1)] at h
    simp only [] at h
    split_ifs at h
    all_goals cases h
    all_goals assumption

/-- Witness for `C4_post_rand_preserves_sum` at a concrete run. -/
theorem C4_post_rand_preserves_sum_witness :
    ([(1:ℚ)/2, 5/2]).sum = ([(1:ℚ), 2]).sum :=
  C4_post_rand_preserves_sum [1, 2] (1/2) 2 (fun _ => 1) 0 [1/2, 5/2]
    (by norm_num) (by norm_num) (by decide) (by decide)

/-- Claim C5: on a normal return with non-empty input, the enforcer rounds
every value; the slot picked by the random index keeps its rounded value plus
the entire residual `total - sum(rounded)`, every other slot keeps exactly
its rounded value, and the output sums exactly to `total`.  This holds for
every possible choice of the random index. -/
theorem C5_enforce_residual_one_slot (total : ℚ) (values : List ℚ)
    (p idx : ℕ) (out : List ℚ) (hne : values ≠ [])
    (hidx : idx < values.length)
    (h : enforce_exact_sum total values p idx = .ok out) :
    out.length = values.length ∧ out.sum = total ∧
      (∀ j, j ≠ idx → out.get? j = (values.map (roundTo p)).get? j) ∧
      out.get? idx = some ((values.map (roundTo p)).getD idx 0 +
        (total - (values.map (roundTo p)).sum)) := by
  unfold enforce_exact_sum at h
  rw [if_neg hne] at h
  simp only [] at h
  set r := values.map (roundTo p) with hr
  have hlt : idx < r.length := by simpa [hr] using hidx
  by_cases hd : total - r.sum = 0
  · rw [if_pos hd] at h
    injection h with h'
    subst h'
    refine ⟨by simp [hr], by linarith, fun j _ => rfl, ?_⟩
    rw [hd, add_zero, List.getD_eq_get r 0 hlt, List.get?_eq_get hlt]
  · rw [if_neg hd, if_pos (abs_pos.mpr hd), Nat.mod_eq_of_lt hlt] at h
    split at h
    · rename_i hsum
      injection h with h'
      subst h'
      have hgetD : r.getD idx 0 = r.get ⟨idx, hlt⟩ := List.getD_eq_get r 0 hlt
      have hval : roundTo p (r.getD idx 0 + (total - r.sum))
          = r.getD idx 0 + (total - r.sum) := by
        have h1 := List.sum_set' r idx
          (roundTo p (r.getD idx 0 + (total - r.sum)))
        rw [hsum, dif_pos hlt] at h1
        have h2 : r[idx] = r.get ⟨idx, hlt⟩ := rfl
        rw [h2, ← hgetD] at h1
        linarith
      refine ⟨by simp [hr], hsum,
        fun j hj => List.get?_set_ne _ _ (Ne.symm hj), ?_⟩
      rw [List.get?_set_eq_of_lt _ hlt, hval]
    · cases h

/-- Witness for `C5_enforce_residual_one_slot` at a concrete run. -/
theorem C5_enforce_residual_one_slot_witness :
    ([(333:ℚ)/100, 167/50, 333/100]).sum = 10 :=
  (C5_enforce_residual_one_slot 10 [10/3, 10/3, 10/3] 2 1
    [333/100, 167/50, 333/100] (by decide) (by decide) (by decide)).2.1

/-- Helper: mapping `roundTo p` over already-rounded values is the identity. -/
theorem map_roundTo_self {p : ℕ} : ∀ {l : List ℚ},
    (∀ v ∈ l, roundTo p v = v) → l.map (roundTo p) = l
  | [], _ => rfl
  | v :: t, h => by
    rw [List.map_cons, h v (List.mem_cons_self v t),
      map_roundTo_self fun u hu => h u (List.mem_cons_of_mem v hu)]

/-- Claim C7 (amended): the enforcer returns already-exact input unchanged
provided every value is additionally a fixed point of rounding at the
working precision; without that proviso the values are re-rounded first and
the output can differ from the input even when the input sum is exact. -/
theorem C7_idempotent_on_rounded (total : ℚ) (values : List ℚ) (p pick : ℕ)
    (hsum : values.sum = total) (hfix : ∀ v ∈ values, roundTo p v = v) :
    enforce_exact_sum total values p pick = .ok values := by
  unfold enforce_exact_sum
  by_cases hne : values = []
  · rw [if_pos hne]
  · rw [if_neg hne]
    simp [map_roundTo_self hfix, hsum]

/-- Witness for `C7_idempotent_on_rounded` at a concrete run. -/
theorem C7_idempotent_on_rounded_witness :
    enforce_exact_sum 3 [1, 2] 2 0 = .ok [1, 2] :=
  C7_idempotent_on_rounded 3 [1, 2] 2 0 (by norm_num) (by decide)

/-- Claim C7 (counterexample): the input `[0.005, 0.005]` sums exactly to the
target `0.01`, yet the enforcer re-rounds both values to `0.0` and then dumps
the whole residual on one slot, returning `[0.01, 0.0] ≠ [0.005, 0.005]`. -/
theorem C7_changes_exact_input :
    ([(1:ℚ)/200, 1/200]).sum = 1/100 ∧
    enforce_exact_sum (1/100) [1/200, 1/200] 2 0 = .ok [1/100, 0] ∧
    ([(1:ℚ)/100, 0] ≠ [1/200, 1/200]) := by
  refine ⟨by norm_num, by decide, by decide⟩

/-- Claim C6 (amended): with `slot_count = 1` and non-negative hours, the
equal and random strategies return `[round(total_hours, precision)]`, but the
proportional-copy strategy validates with its hard-coded default precision 2
and thus returns `[round(total_hours, 2)]` whatever precision the caller
passes. -/
theorem C6_single_slot (t : ℚ) (p retries pick : ℕ) (draws : ℕ → ℕ → ℚ)
    (ref : List ℚ) (ht : 0 ≤ t) (href : ref.length = 1) :
    distribute_equal t 1 p pick = .ok [roundTo p t] ∧
    distribute_random t 1 p retries draws pick = .ok [roundTo p t] ∧
    copy_reference_day t 1 ref p pick = .ok [roundTo 2 t] := by
  refine ⟨?_, ?_, ?_⟩
  · unfold distribute_equal
    rw [validate_one ht]
  · unfold distribute_random
    rw [validate_one ht]
  · unfold copy_reference_day
    rw [if_neg (by simp [href]), validate_one ht]

/-- Witness for `C6_single_slot` at a concrete input. -/
theorem C6_single_slot_witness :
    distribute_equal (617/500) 1 3 0 = .ok [roundTo 3 (617/500)] ∧
    distribute_random (617/500) 1 3 5 (fun _ _ => 0) 0
      = .ok [roundTo 3 (617/500)] ∧
    copy_reference_day (617/500) 1 [1] 3 0 = .ok [roundTo 2 (617/500)] :=
  C6_single_slot (617/500) 3 5 0 (fun _ _ => 0) [1] (by norm_num) rfl

/-- Claim C6 (counterexample): at precision 3, the proportional-copy strategy
with one slot returns `1.234` rounded to the default precision 2, i.e.
`1.23`, not `1.234` rounded to the requested precision 3. -/
theorem C6_copy_ignores_precision :
    copy_reference_day (617/500) 1 [1] 3 0 = .ok [123/100] ∧
    roundTo 3 (617/500) = 617/500 ∧ ((123:ℚ)/100 ≠ 617/500) := by
  refine ⟨by decide, by decide, by norm_num⟩

/-- Claim C8 (code bug): with fills `[1, 1]`, factor `0.5`, both uniform
draws `0.5` and precision 2, the drift is `diff = -0.5`, so
`abs(diff)/count = 0.25 ≥ 0.01` and the spec's coarse correction would fire,
yielding `[1, 1]`; the source's floor-division condition
`abs(diff) // len >= 1/10**2` evaluates `⌊0.25⌋ = 0 ≥ 0.01` to false, skips
the coarse correction and returns `[0.75, 1.25]` instead. -/
theorem C8_coarse_trigger_uses_floor_div :
    post_randomize [1, 1] (1/2) 2 (fun _ => 1/2) 0 = .ok [3/4, 5/4] ∧
    post_randomize_specModel [1, 1] (1/2) 2 (fun _ => 1/2) 0 = .ok [1, 1] ∧
    |((1:ℚ)) + 1 - (5/4 + 5/4)| / 2 ≥ 1 / 10 ^ 2 := by
  refine ⟨by decide, by decide, by decide⟩

/-! ### The fill loop never touches excluded positions -/

/-- The fill loop returns every position whose exclusion flag is 1 with
exactly its incoming value. -/
theorem mergeFill_preserves_excluded (fills : List ℚ) :
    ∀ (cvs : List ℚ) (exs : List ℤ) (k0 : ℕ) (res : List ℚ) (k : ℕ),
      mergeFill fills cvs exs k0 = .ok (res, k) →
      ∀ i, exs.get? i = some 1 → res.get? i = cvs.get? i := by
  intro cvs
  induction cvs with
  | nil =>
      intro exs k0 res k h i hex
      unfold mergeFill at h
      injection h with h'
      rw [show res = [] from congrArg Prod.fst h'.symm]
  | cons c cvs ih =>
      intro exs k0 res k h i hex
      cases exs with
      | nil => simp at hex
      | cons e exs =>
          unfold mergeFill at h
          by_cases he : e = 1
          · rw [if_pos he] at h
            cases hm : mergeFill fills cvs exs k0 with
            | error err => rw [hm] at h; cases h
            | ok pr =>
                obtain ⟨rest, k'⟩ := pr
                rw [hm] at h
                injection h with h'
                cases h'
                cases i with
                | zero => rfl
                | succ i => exact ih exs k0 rest _ hm i (by simpa using hex)
          · have he1 : i ≠ 0 := by
              intro h0
              subst h0
              simp at hex
              exact he hex
            obtain ⟨j, rfl⟩ : ∃ j, i = j + 1 := ⟨i - 1, by omega⟩
            rw [if_neg he] at h
            by_cases hc : c = -1
            · rw [if_pos hc] at h
              by_cases hk : k0 < fills.length
              · rw [if_pos hk] at h
                cases hm : mergeFill fills cvs exs (k0 + 1) with
                | error err => rw [hm] at h; cases h
                | ok pr =>
                    obtain ⟨rest, k'⟩ := pr
                    rw [hm] at h
                    injection h with h'
                    cases h'
                    exact ih exs (k0 + 1) rest _ hm j (by simpa using hex)
              · rw [if_neg hk] at h; cases h
            · rw [if_neg hc] at h
              cases hm : mergeFill fills cvs exs k0 with
              | error err => rw [hm] at h; cases h
              | ok pr =>
                  obtain ⟨rest, k'⟩ := pr
                  rw [hm] at h
                  injection h with h'
                  cases h'
                  exact ih exs k0 rest _ hm j (by simpa using hex)

/-- Function `apply_fill_values` returns every excluded position as its incoming value
clamped at zero (the clamp is the final `max(0.0, v)` pass). -/
theorem apply_preserves_excluded {cur : List ℚ} {exv : List ℤ}
    {fills : List ℚ} {slots : ℕ} {post : ℚ} {p : ℕ} {rs : ℕ → ℚ} {pick : ℕ}
    {res : List ℚ}
    (h : apply_fill_values cur exv fills slots post p rs pick = .ok res)
    {i : ℕ} (hex : exv.get? i = some 1) :
    res.get? i = (cur.get? i).map fun v => max 0 v := by
  unfold apply_fill_values at h
  cases hpr : post_randomize fills post p rs pick with
  | error e => rw [hpr] at h; cases h
  | ok fills' =>
      rw [hpr] at h
      have h2 : (match mergeFill fills' cur exv 0 with
          | Except.error e => Except.error e
          | Except.ok (r, fill_idx) =>
              if fill_idx = slots then Except.ok (r.map fun v => max 0 v)
              else Except.error Err.assertFillCount) = Except.ok res := h
      split at h2
      · cases h2
      · rename_i r k heq
        split at h2
        · injection h2 with h'
          subst h'
          rw [List.get?_map,
            mergeFill_preserves_excluded fills' cur exv 0 r k heq i hex]
        · cases h2

/-- Claim C1 (amended): in a non-override call that returns a result, an
entry at a position whose exclusion flag is 1 is never assigned a fill value,
but it does pass through the final clamp: it is returned as
`max(0, input value)`.  Non-negative excluded entries are bit-identical; an
excluded blank (`-1`) comes back as `0.0`, not `-1`. -/
theorem C1_excluded_clamped (strategy : String) (ex : List ℤ) (total : ℚ)
    (cv : List ℚ) (retries p : ℕ) (ref : List ℚ) (post : ℚ) (o : Oracle)
    (res : List ℚ) (i : ℕ)
    (h : fill_day false strategy ex total cv retries p ref post o = .ok res)
    (hex : ex.get? i = some 1) :
    res.get? i = (cv.get? i).map fun v => max 0 v := by
  have hexne : ex ≠ [] := by intro he; rw [he] at hex; simp at hex
  unfold fill_day at h
  rw [if_neg hexne] at h
  simp only [Bool.false_eq_true, if_false] at h
  split at h
  · cases h
  · split at h
    · cases h
    · split at h
      · cases h
      · rename_i fills hfe
        split at h
        · cases h
        · rename_i r happ
          split at h
          · injection h with h'
            subst h'
            exact apply_preserves_excluded happ hex
          · cases h

/-- Claim C1 (counterexample): with exclusion mask `[1, 0]` and current
values `[-1, -1]`, the excluded blank slot 0 is returned as `0.0`, not as the
sentinel `-1`: the final clamp `max(0.0, v)` rewrites it. -/
theorem C1_excluded_blank_not_preserved :
    fill_day false "equal" [1, 0] 5 [-1, -1] 5 2 [] 0
        ⟨0, fun _ _ => 0, fun _ => 0, 0⟩ = .ok [0, 5] ∧ ((0:ℚ) ≠ -1) := by
  refine ⟨by decide, by norm_num⟩

/-- Witness for `C1_excluded_clamped` at a concrete run. -/
theorem C1_excluded_clamped_witness :
    ([(7:ℚ), 3]).get? 0 = (([(7:ℚ), -1]).get? 0).map fun v => max 0 v :=
  C1_excluded_clamped "equal" [1, 0] 10 [7, -1] 5 2 [] 0
    ⟨0, fun _ _ => 0, fun _ => 0, 0⟩ [7, 3] 0 (by decide) (by decide)

/-- Claim C9: under override mode every slot is reset to the blank sentinel
first, so two calls that agree on everything except the prior slot values
(same length) produce identical results, for identical random draws. -/
theorem C9_override_ignores_prior (strategy : String) (ex : List ℤ)
    (total : ℚ) (cv1 cv2 : List ℚ) (retries p : ℕ) (ref : List ℚ)
    (post : ℚ) (o : Oracle) (hlen : cv1.length = cv2.length) :
    fill_day true strategy ex total cv1 retries p ref post o =
    fill_day true strategy ex total cv2 retries p ref post o := by
  simp only [fill_day, hlen, eq_self_iff_true, if_true]

/-- Witness for `C9_override_ignores_prior` at concrete runs. -/
theorem C9_override_ignores_prior_witness :
    fill_day true "equal" [] 4 [1] 5 2 [] 0 ⟨0, fun _ _ => 0, fun _ => 0, 0⟩ =
    fill_day true "equal" [] 4 [2] 5 2 [] 0 ⟨0, fun _ _ => 0, fun _ => 0, 0⟩ :=
  C9_override_ignores_prior "equal" [] 4 [1] [2] 5 2 [] 0
    ⟨0, fun _ _ => 0, fun _ => 0, 0⟩ rfl

/-! ### No fillable slot: every strategy path raises -/

/-- With zero slots, the equal strategy raises the slots error. -/
theorem distribute_equal_slots_zero (t : ℚ) (p pick : ℕ) :
    distribute_equal t 0 p pick = .error .slotsNonPositive := rfl

/-- With zero slots, the random strategy raises the slots error. -/
theorem distribute_random_slots_zero (t : ℚ) (p retries pick : ℕ)
    (draws : ℕ → ℕ → ℚ) :
    distribute_random t 0 p retries draws pick = .error .slotsNonPositive :=
  rfl

/-- With zero slots and an empty reference, the proportional-copy strategy
passes its length assert and then raises the slots error from validation. -/
theorem copy_reference_day_slots_zero (t : ℚ) (p pick : ℕ) :
    copy_reference_day t 0 [] p pick = .error .slotsNonPositive := rfl

/-- If no position is blank and non-excluded, the reference cut taken by the
proportional-copy dispatch of `fill_day` is empty. -/
theorem cut_nil_of_no_slots :
    ∀ (ref cvs : List ℚ) (exs : List ℤ),
      ((cvs.zip exs).filter fun q => q.1 = -1 ∧ q.2 = 0) = [] →
      ((ref.zip (exs.zip cvs)).filter fun q => q.2.1 = 0 ∧ q.2.2 = -1) = [] := by
  intro ref
  induction ref with
  | nil => intro cvs exs h; rfl
  | cons r ref ih =>
      intro cvs exs h
      cases cvs with
      | nil => simp [List.zip_nil_right]
      | cons c cvs =>
          cases exs with
          | nil => simp [List.zip_nil_right]
          | cons e exs =>
              rw [List.zip_cons_cons, List.filter_cons] at h
              rw [List.zip_cons_cons, List.zip_cons_cons, List.filter_cons]
              split at h
              · simp at h
              · rename_i hcond
                split
                · rename_i hcond2
                  exfalso
                  simp only [decide_eq_true_eq] at hcond hcond2
                  exact hcond ⟨hcond2.2, hcond2.1⟩
                · exact ih cvs exs h

/-- Claim C10: when `slots_to_fill` is zero, `fill_day` never returns a
result for any of the three strategies: the equal and random strategies
raise from validation, and on the proportional-copy path the same error is
re-raised through the equal fallback — even when the non-blank values
already sum to the target.  Moreover the `if slots == 0: return []` branch
of `validate_hours_and_slots` is dead code: slots 0 always takes the earlier
`slots <= 0` raise. -/
theorem C10_no_fillable_slot (override : Bool) (strategy : String)
    (hs : strategy = "equal" ∨ strategy = "random" ∨
      strategy = "copy_reference")
    (ex : List ℤ) (total : ℚ) (cv : List ℚ) (retries p : ℕ) (ref : List ℚ)
    (post : ℚ) (o : Oracle)
    (hlen : cv.length
      = (if ex = [] then List.replicate cv.length (0:ℤ) else ex).length)
    (h0 : slots_to_fill (if override then List.replicate cv.length (-1) else cv)
        (if ex = [] then List.replicate cv.length 0 else ex) = 0) :
    fill_day override strategy ex total cv retries p ref post o
        = .error .slotsNonPositive ∧
      ∀ (t : ℚ) (q : ℕ),
        validate_hours_and_slots t 0 q = .error .slotsNonPositive := by
  refine ⟨?_, fun t q => validate_slots_zero t q⟩
  have h0' := h0
  unfold slots_to_fill at h0'
  have hfil := List.length_eq_zero.mp h0'
  unfold fill_day
  rw [if_neg (not_ne_iff.mpr hlen)]
  simp only [h0]
  rcases hs with h | h | h <;> subst h
  · rw [if_neg (not_not_intro (Or.inr (Or.inl rfl)))]
    rfl
  · rw [if_neg (not_not_intro (Or.inl rfl))]
    rfl
  · rw [if_neg (not_not_intro (Or.inr (Or.inr rfl)))]
    have hcut := cut_nil_of_no_slots (ref.map fun v => if 0 ≤ v then v else 0)
      _ _ hfil
    rw [hcut]
    rfl

/-- Witness for `C10_no_fillable_slot` at a concrete run where the existing
non-blank values already sum exactly to the target. -/
theorem C10_no_fillable_slot_witness :
    fill_day false "equal" [] 5 [2, 3] 5 2 [] 0
        ⟨0, fun _ _ => 0, fun _ => 0, 0⟩ = .error .slotsNonPositive :=
  (C10_no_fillable_slot false "equal" (Or.inl rfl) [] 5 [2, 3] 5 2 [] 0
    ⟨0, fun _ _ => 0, fun _ => 0, 0⟩ (by decide) (by decide)).1

/-- Claim C2 (amended): the final postcondition check of `fill_day` is
reachable from input satisfying the documented preconditions (numeric
entries, empty mask, known strategy, non-negative target): whenever the
pre-filled value exceeds the target, the clamped hours-to-distribute
collapse to zero and the assembled vector sums to the pre-filled value, so
the fatal invariant failure fires on user input, not only on internal
bugs. -/
theorem C2_postcondition_fails_on_overfill (x total : ℚ) (p retries : ℕ)
    (ref : List ℚ) (o : Oracle) (h0 : 0 ≤ total) (hx : total < x) :
    fill_day false "equal" [] total [x, -1] retries p ref 0 o
      = .error .assertPostSum := by
  have hxne : x ≠ -1 := by intro he; subst he; linarith
  have hx0 : (0:ℚ) ≤ x := le_of_lt (lt_of_le_of_lt h0 hx)
  have hmax : max 0 (total - x) = 0 := max_eq_left (by linarith)
  have hmaxx : max 0 x = x := max_eq_right hx0
  have hxt : ¬ (x = total) := by
    intro he
    subst he
    exact absurd hx (lt_irrefl x)
  unfold fill_day slots_to_fill
  simp [hxne, hmax, hmaxx, hxt, roundTo_zero, distribute_equal,
    validate_hours_and_slots, apply_fill_values, post_randomize, mergeFill]

/-- Claim C2 (counterexample): a concrete precondition-satisfying input on
which the final `sum(res) == total_hours` assertion of `fill_day` fails:
pre-filled 5 hours against a target of 3. -/
theorem C2_overfilled_concrete :
    fill_day false "equal" [] 3 [5, -1] 5 2 [] 0
      ⟨0, fun _ _ => 0, fun _ => 0, 0⟩ = .error .assertPostSum := by
  decide

/-- Witness for `C2_postcondition_fails_on_overfill` at a concrete input. -/
theorem C2_postcondition_fails_on_overfill_witness :
    fill_day false "equal" [] 2 [6, -1] 5 3 [] 0
      ⟨0, fun _ _ => 0, fun _ => 0, 0⟩ = .error .assertPostSum :=
  C2_postcondition_fails_on_overfill 6 2 3 5 []
    ⟨0, fun _ _ => 0, fun _ => 0, 0⟩ (by norm_num) (by norm_num)

end Planta
